import Mathlib

/-
  Verification of the Mechanical-Keyboard-Simulator audio engine
  (MechanicalKeyboardApp/engine.py and MechanicalKeyboardApp/dsp.py).

  The Python code is shallowly embedded: machine floats are idealised as
  exact rationals (ℚ) except where the code takes a square root, which is
  modelled over ℝ; the pseudo-random generator is modelled as an explicit
  stream of draws supplied as an argument; mutable state is passed
  explicitly.  Every definition mirrors the corresponding source function.
-/

namespace MechKeys

/- ───────────────────────── engine.py constants ───────────────────────── -/

def REL_DUR_SHORT : ℚ := 50 / 1000

def REL_DUR_LONG : ℚ := 200 / 1000

def REL_SCALE_MIN : ℚ := 86 / 100

def REL_SCALE_MID : ℚ := 1

def REL_SCALE_MAX : ℚ := 116 / 100

def MV_REL_BOOST_BASE : ℚ := 116 / 100

def MV_VOL_LOW : ℚ := 962 / 1000

def MV_VOL_HIGH : ℚ := 1038 / 1000

def QUEUE_MAXSIZE : ℕ := 128

/-- Duration-based release scale, the `dur_scale` computation inside
`MicroVariator.vol_scale` (engine.py lines 294-303): `0.86` below 50 ms,
`1.16` above 200 ms, otherwise `_REL_SCALE_MIN + t * (_REL_SCALE_MID -
_REL_SCALE_MIN)` with `t = (duration - 0.05) / (0.20 - 0.05)`. -/
def dur_scale (duration : ℚ) : ℚ :=
  if duration < REL_DUR_SHORT then REL_SCALE_MIN
  else if duration > REL_DUR_LONG then REL_SCALE_MAX
  else
    REL_SCALE_MIN +
      (duration - REL_DUR_SHORT) / (REL_DUR_LONG - REL_DUR_SHORT) *
        (REL_SCALE_MID - REL_SCALE_MIN)

/-- MicroVariator.vol_scale (engine.py lines 275-313).  The uniform jitter
draw `rng.uniform(0.962, 1.038)` is passed in as `base`. -/
def vol_scale (is_release : Bool) (duration wpm base : ℚ) : ℚ :=
  if !is_release then base
  else
    let release_boost := MV_REL_BOOST_BASE * dur_scale duration
    let boosted :=
      if wpm > 60 then release_boost * max (88 / 100) (1 - (wpm - 60) * (2 / 1000))
      else release_boost
    base * boosted

/-- Duration scale as the spec sentence describes it: linear interpolation
between 0.86 and 1.16 over the whole band 0.05 s – 0.20 s.  Used only to
compare the spec's wording with the code. -/
def spec_dur_scale (duration : ℚ) : ℚ :=
  if duration < REL_DUR_SHORT then REL_SCALE_MIN
  else if duration > REL_DUR_LONG then REL_SCALE_MAX
  else
    REL_SCALE_MIN +
      (duration - REL_DUR_SHORT) / (REL_DUR_LONG - REL_DUR_SHORT) *
        (REL_SCALE_MAX - REL_SCALE_MIN)

/- ───────────────────────── PlayCommand and queue ─────────────────────── -/

/-- PlayCommand (engine.py lines 112-126). -/
structure PlayCommand where
  key_id : String
  is_mouse : Bool := false
  is_release : Bool := false
  not_before : ℚ := 0
  duration : ℚ := 0
  last_key : String := ""
deriving DecidableEq

/-- AudioEngine.enqueue_play (engine.py lines 492-514): `put_nowait` on a
`queue.Queue(maxsize=128)`, dropping the command silently when the queue is
full (`except queue.Full: pass`).  The bounded queue is modelled as a list
that grows only while its length is below the capacity. -/
def enqueue_play (q : List PlayCommand) (c : PlayCommand) : List PlayCommand :=
  if q.length < QUEUE_MAXSIZE then q ++ [c] else q

/- ───────────────────────── ChannelRing ───────────────────────────────── -/

/-- ChannelRing state (engine.py lines 349-399): per-channel busy flag plus
the round-robin steal cursor. -/
structure RingState where
  busy : List Bool
  stealPos : ℕ
deriving DecidableEq

/-- Index of the first idle channel, mirroring the scan in
`ChannelRing.acquire` that records the first channel with
`not ch.get_busy()`. -/
def firstIdle : List Bool → Option ℕ
  | [] => none
  | b :: rest => if b then (firstIdle rest).map (· + 1) else some 0

/-- ChannelRing.acquire (engine.py lines 374-388): one O(N) scan counting
busy channels and finding the first idle one; if none is idle the channel
at the steal cursor is hard-stopped, the cursor advances mod N, and the
victim is returned with active count `self._n`. -/
def acquire (s : RingState) : (ℕ × ℕ) × RingState :=
  match firstIdle s.busy with
  | some i => ((i, s.busy.count true), s)
  | none =>
      ((s.stealPos, s.busy.length),
       { busy := s.busy.set s.stealPos false
         stealPos := (s.stealPos + 1) % s.busy.length })

theorem firstIdle_eq_none_of_all_busy :
    ∀ l : List Bool, (∀ b ∈ l, b = true) → firstIdle l = none := by
  intro l
  induction l with
  | nil => intro _; rfl
  | cons b rest ih =>
      intro h
      have hb : b = true := h b (List.mem_cons_self b rest)
      have hrest : ∀ x ∈ rest, x = true := fun x hx => h x (List.mem_cons_of_mem b hx)
      simp [firstIdle, hb, ih hrest]

/- ───────────────────────── Theorems: C1 ──────────────────────────────── -/

/-- C1 counterexample: the spec claims the duration scale at the midpoint
`duration = 0.125` is approximately `1.00` (linear interpolation between
0.86 and 1.16), but the code interpolates between `_REL_SCALE_MIN = 0.86`
and `_REL_SCALE_MID = 1.00`, giving `dur_scale 0.125 = 0.93`, which is 7 %
away from 1.00 and differs from the spec's own interpolation value 1.01. -/
theorem c1_dur_scale_cex :
    dur_scale (125 / 1000) = 93 / 100
  ∧ ¬ |dur_scale (125 / 1000) - 1| ≤ 1 / 20
  ∧ dur_scale (125 / 1000) ≠ spec_dur_scale (125 / 1000) := by
  have hval : dur_scale (125 / 1000) = 93 / 100 := by
    norm_num [dur_scale, REL_DUR_SHORT, REL_DUR_LONG, REL_SCALE_MIN, REL_SCALE_MID]
  refine ⟨hval, ?_, ?_⟩
  · rw [hval]
    norm_num [abs_le]
  · norm_num [dur_scale, spec_dur_scale, REL_DUR_SHORT, REL_DUR_LONG,
              REL_SCALE_MIN, REL_SCALE_MID, REL_SCALE_MAX]

/-- C1 (amended): the release duration scale is 0.86 for holds below 50 ms
and 1.16 for holds above 200 ms, exactly as claimed, but in between it is
linearly interpolated from 0.86 up to 1.00 (not 1.16), so the midpoint
0.125 s yields 0.93; `vol_scale` for a release at WPM ≤ 60 multiplies the
jitter draw by `1.16 * dur_scale duration`. -/
theorem c1_dur_scale_amended (d : ℚ) (h1 : REL_DUR_SHORT ≤ d) (h2 : d ≤ REL_DUR_LONG) :
    dur_scale d = REL_SCALE_MIN + (d - REL_DUR_SHORT) / (3 / 20) * (14 / 100)
  ∧ dur_scale (3 / 100) = 86 / 100
  ∧ dur_scale (1 / 2) = 116 / 100
  ∧ dur_scale (125 / 1000) = 93 / 100
  ∧ vol_scale true d 0 1 = MV_REL_BOOST_BASE * dur_scale d := by
  have hlt : ¬ d < REL_DUR_SHORT := not_lt.mpr h1
  have hgt : ¬ d > REL_DUR_LONG := not_lt.mpr h2
  refine ⟨?_, ?_, ?_, ?_, ?_⟩
  · simp only [dur_scale, if_neg hlt, if_neg hgt]
    norm_num [REL_DUR_SHORT, REL_DUR_LONG, REL_SCALE_MIN, REL_SCALE_MID]
  · norm_num [dur_scale, REL_DUR_SHORT, REL_DUR_LONG, REL_SCALE_MIN]
  · norm_num [dur_scale, REL_DUR_SHORT, REL_DUR_LONG, REL_SCALE_MAX]
  · norm_num [dur_scale, REL_DUR_SHORT, REL_DUR_LONG, REL_SCALE_MIN, REL_SCALE_MID]
  · simp [vol_scale]

/-- C1 witness: the amended theorem instantiated at the midpoint 0.125 s. -/
theorem c1_dur_scale_amended_witness :
    dur_scale (125 / 1000) = REL_SCALE_MIN + (125 / 1000 - REL_DUR_SHORT) / (3 / 20) * (14 / 100)
  ∧ dur_scale (3 / 100) = 86 / 100
  ∧ dur_scale (1 / 2) = 116 / 100
  ∧ dur_scale (125 / 1000) = 93 / 100
  ∧ vol_scale true (125 / 1000) 0 1 = MV_REL_BOOST_BASE * dur_scale (125 / 1000) :=
  c1_dur_scale_amended (125 / 1000)
    (by norm_num [REL_DUR_SHORT]) (by norm_num [REL_DUR_LONG])

/- ───────────────────────── Theorems: C7 ──────────────────────────────── -/

/-- C7: `enqueue_play` is a total function (it never blocks or raises); when
the queue already holds 128 commands the new command is dropped, and any
sequence of enqueues starting from a queue within capacity leaves the queue
within capacity. -/
theorem c7_enqueue_play_bounded (q : List PlayCommand) (cs : List PlayCommand)
    (h : q.length ≤ QUEUE_MAXSIZE) :
    (cs.foldl enqueue_play q).length ≤ QUEUE_MAXSIZE
  ∧ ∀ c, q.length = QUEUE_MAXSIZE → enqueue_play q c = q := by
  constructor
  · induction cs generalizing q with
    | nil => exact h
    | cons c rest ih =>
        refine ih (enqueue_play q c) ?_
        by_cases hlt : q.length < QUEUE_MAXSIZE
        · simp only [enqueue_play, if_pos hlt, List.length_append, List.length_cons,
                     List.length_nil]
          omega
        · simp only [enqueue_play, if_neg hlt]
          exact h
  · intro c hfull
    simp [enqueue_play, hfull]

/-- C7 witness: from an empty queue, enqueueing one command keeps the queue
within the 128-command capacity. -/
theorem c7_enqueue_play_bounded_witness :
    (List.foldl enqueue_play [] [(⟨"a", false, false, 0, 0, ""⟩ : PlayCommand)]).length ≤ QUEUE_MAXSIZE
  ∧ ∀ c, ([] : List PlayCommand).length = QUEUE_MAXSIZE → enqueue_play [] c = [] :=
  c7_enqueue_play_bounded [] [⟨"a", false, false, 0, 0, ""⟩] (by decide)

/- ───────────────────────── Theorems: C3 ──────────────────────────────── -/

/-- C3: when every channel of the ring is busy, `acquire` (a total function,
so it never blocks) returns the channel at the round-robin steal cursor with
an active count equal to N, hard-stops that channel, and advances the
cursor modulo N. -/
theorem c3_acquire_all_busy (s : RingState)
    (h : ∀ b ∈ s.busy, b = true) (hn : 0 < s.busy.length) :
    (acquire s).1.1 = s.stealPos
  ∧ (acquire s).1.2 = s.busy.length
  ∧ (acquire s).2.stealPos = (s.stealPos + 1) % s.busy.length
  ∧ (acquire s).2.busy = s.busy.set s.stealPos false := by
  have hnone : firstIdle s.busy = none := firstIdle_eq_none_of_all_busy s.busy h
  simp [acquire, hnone]

/-- C3 witness: a fully busy three-channel ring with the cursor at 1. -/
theorem c3_acquire_all_busy_witness :
    (acquire ⟨[true, true, true], 1⟩).1.1 = (⟨[true, true, true], 1⟩ : RingState).stealPos
  ∧ (acquire ⟨[true, true, true], 1⟩).1.2 = (⟨[true, true, true], 1⟩ : RingState).busy.length
  ∧ (acquire ⟨[true, true, true], 1⟩).2.stealPos =
      ((⟨[true, true, true], 1⟩ : RingState).stealPos + 1) %
        (⟨[true, true, true], 1⟩ : RingState).busy.length
  ∧ (acquire ⟨[true, true, true], 1⟩).2.busy =
      (⟨[true, true, true], 1⟩ : RingState).busy.set
        (⟨[true, true, true], 1⟩ : RingState).stealPos false :=
  c3_acquire_all_busy ⟨[true, true, true], 1⟩ (by decide) (by decide)

/- ───────────────────────── AudioEngine._pick ─────────────────────────── -/

/-- Random-retry body of `AudioEngine._pick` (engine.py lines 762-771): up
to 12 draws `random.randrange(n)` looking for a candidate different from
the last-played index and not among the recent (pool, index) pairs; if all
twelve draws fail, a linear scan takes the first index different from the
last-played one; if even that fails (impossible for n ≥ 2) `idx` keeps its
initial value `last`.  The RNG is modelled as the stream `draws`, reduced
mod n exactly as `randrange` bounds its result. -/
def randPath (n : ℕ) (last : ℤ) (recent : List (ℕ × ℕ)) (pidx : ℕ)
    (draws : ℕ → ℕ) : ℤ :=
  match ((List.range 12).map fun k => draws k % n).find?
      (fun (c : ℕ) => decide ((c : ℤ) ≠ last ∧ (pidx, c) ∉ recent)) with
  | some c => (c : ℤ)
  | none =>
      match (List.range n).find? (fun (c : ℕ) => decide ((c : ℤ) ≠ last)) with
      | some c => (c : ℤ)
      | none => last

/-- Index selection of `AudioEngine._pick` for a pool of size n ≥ 2
(engine.py lines 755-771): prefer the pitch bias when it is in range,
differs from the last-played index and is not a recent combination,
otherwise fall back to the random-retry path. -/
def chooseIdx (n : ℕ) (last : ℤ) (recent : List (ℕ × ℕ)) (pidx : ℕ)
    (bias : Option ℕ) (draws : ℕ → ℕ) : ℤ :=
  match bias with
  | some b =>
      if b < n ∧ (b : ℤ) ≠ last ∧ (pidx, b) ∉ recent then (b : ℤ)
      else randPath n last recent pidx draws
  | none => randPath n last recent pidx draws

/-- AudioEngine._pick (engine.py lines 743-774) for a pool of size `n`:
returns the selected index (`none` for an empty pool) together with the new
value of `_last_idx[pidx]` (unchanged for pools of size 0 or 1, where the
code returns early without recording). -/
def pick (n : ℕ) (last : ℤ) (recent : List (ℕ × ℕ)) (pidx : ℕ)
    (bias : Option ℕ) (draws : ℕ → ℕ) : Option ℕ × ℤ :=
  if n = 0 then (none, last)
  else if n = 1 then (some 0, last)
  else
    let i := chooseIdx n last recent pidx bias draws
    (some i.toNat, i)

theorem randPath_spec (n : ℕ) (last : ℤ) (recent : List (ℕ × ℕ)) (pidx : ℕ)
    (draws : ℕ → ℕ) (hn : 2 ≤ n) :
    randPath n last recent pidx draws ≠ last ∧
    0 ≤ randPath n last recent pidx draws ∧
    randPath n last recent pidx draws < (n : ℤ) := by
  unfold randPath
  rcases h1 : ((List.range 12).map fun k => draws k % n).find?
      (fun (c : ℕ) => decide ((c : ℤ) ≠ last ∧ (pidx, c) ∉ recent)) with _ | c
  · rcases h2 : (List.range n).find? (fun (c : ℕ) => decide ((c : ℤ) ≠ last)) with _ | c
    · exfalso
      have e0 := List.find?_eq_none.mp h2 0 (List.mem_range.mpr (by omega))
      have e1 := List.find?_eq_none.mp h2 1 (List.mem_range.mpr (by omega))
      simp only [decide_eq_true_eq, not_not] at e0 e1
      omega
    · dsimp only
      have hp := List.find?_some h2
      have hm := List.mem_of_find?_eq_some h2
      have hc : c < n := List.mem_range.mp hm
      simp only [decide_eq_true_eq] at hp
      exact ⟨hp, Int.ofNat_nonneg c, by exact_mod_cast hc⟩
  · dsimp only
    have hp := List.find?_some h1
    have hm := List.mem_of_find?_eq_some h1
    obtain ⟨k, -, hk⟩ := List.mem_map.mp hm
    have hc : c < n := by
      rw [← hk]
      exact Nat.mod_lt _ (by omega)
    simp only [decide_eq_true_eq] at hp
    exact ⟨hp.1, Int.ofNat_nonneg c, by exact_mod_cast hc⟩

theorem chooseIdx_spec (n : ℕ) (last : ℤ) (recent : List (ℕ × ℕ)) (pidx : ℕ)
    (bias : Option ℕ) (draws : ℕ → ℕ) (hn : 2 ≤ n) :
    chooseIdx n last recent pidx bias draws ≠ last ∧
    0 ≤ chooseIdx n last recent pidx bias draws ∧
    chooseIdx n last recent pidx bias draws < (n : ℤ) := by
  cases bias with
  | none => exact randPath_spec n last recent pidx draws hn
  | some b =>
      by_cases hb : b < n ∧ (b : ℤ) ≠ last ∧ (pidx, b) ∉ recent
      · simp only [chooseIdx, if_pos hb]
        exact ⟨hb.2.1, Int.ofNat_nonneg b, by exact_mod_cast hb.1⟩
      · simp only [chooseIdx, if_neg hb]
        exact randPath_spec n last recent pidx draws hn

/- ───────────────────────── Theorems: C4 ──────────────────────────────── -/

/-- C4: `_pick` returns `none` exactly on an empty pool, returns index 0 on
a singleton pool, and on a pool with at least two clips two consecutive
calls (the second seeing the last-played index recorded by the first) never
return the same index, whatever the bias arguments and random draws. -/
theorem c4_pick_no_repeat (n : ℕ) (last : ℤ) (recent recent2 : List (ℕ × ℕ))
    (pidx : ℕ) (bias bias2 : Option ℕ) (draws draws2 : ℕ → ℕ) :
    ((pick n last recent pidx bias draws).1 = none ↔ n = 0)
  ∧ (n = 1 → (pick n last recent pidx bias draws).1 = some 0)
  ∧ (2 ≤ n →
      (pick n (pick n last recent pidx bias draws).2 recent2 pidx bias2 draws2).1
        ≠ (pick n last recent pidx bias draws).1) := by
  refine ⟨?_, ?_, ?_⟩
  · constructor
    · intro h
      by_contra hne
      rcases Nat.eq_or_lt_of_le (Nat.one_le_iff_ne_zero.mpr hne) with h1 | h1
      · simp [pick, ← h1] at h
      · have h0 : n ≠ 0 := hne
        have h1' : n ≠ 1 := by omega
        simp [pick, h0, h1'] at h
    · intro h
      simp [pick, h]
  · intro h
    simp [pick, h]
  · intro hn
    have h0 : n ≠ 0 := by omega
    have h1 : n ≠ 1 := by omega
    have hfirst := chooseIdx_spec n last recent pidx bias draws hn
    set i1 := chooseIdx n last recent pidx bias draws with hi1
    have hsecond := chooseIdx_spec n i1 recent2 pidx bias2 draws2 hn
    set i2 := chooseIdx n i1 recent2 pidx bias2 draws2 with hi2
    simp only [pick, if_neg h0, if_neg h1]
    intro heq
    simp only [Option.some.injEq] at heq
    have : i2 = i1 := by
      have e1 : ((i2.toNat : ℤ)) = i2 := Int.toNat_of_nonneg hsecond.2.1
      have e2 : ((i1.toNat : ℤ)) = i1 := Int.toNat_of_nonneg hfirst.2.1
      rw [← e1, ← e2, heq]
    exact hsecond.1 this

/-- C4 witness: a two-clip pool, no bias, all draws 0. -/
theorem c4_pick_no_repeat_witness :
    ((pick 2 (-1) [] 0 none (fun _ => 0)).1 = none ↔ 2 = 0)
  ∧ (2 = 1 → (pick 2 (-1) [] 0 none (fun _ => 0)).1 = some 0)
  ∧ (2 ≤ 2 →
      (pick 2 (pick 2 (-1) [] 0 none (fun _ => 0)).2 [] 0 none (fun _ => 0)).1
        ≠ (pick 2 (-1) [] 0 none (fun _ => 0)).1) :=
  c4_pick_no_repeat 2 (-1) [] [] 0 none none (fun _ => 0) (fun _ => 0)

/- ───────────────────────── Sound-bank state machine ──────────────────── -/

/-- Sound-bank state relevant to the `_last_idx` invariant: the length of
each of the 8 pools (`self._pools`) and the per-pool last-played index
(`self._last_idx`, engine.py line 417). -/
structure BankState where
  poolLen : Fin 8 → ℕ
  lastIdx : Fin 8 → ℤ

/-- Initial bank state (engine.py lines 416-417): eight empty pools and
every last-played index -1. -/
def initBank : BankState := ⟨fun _ => 0, fun _ => -1⟩

/-- Effect of one `_pick` call on slot `i`: `_last_idx[i]` becomes the
second component returned by `pick` (left unchanged for pools of size 0 or
1, where the code returns before the `self._last_idx[pidx] = idx` line). -/
def bankPickStep (s : BankState) (i : Fin 8) (bias : Option ℕ)
    (draws : ℕ → ℕ) (recent : List (ℕ × ℕ)) : BankState :=
  { s with
    lastIdx :=
      Function.update s.lastIdx i
        (pick (s.poolLen i) (s.lastIdx i) recent i.val bias draws).2 }

/-- Effect of `reload_sounds` (engine.py lines 645-649): inside one locked
section every pool slot is replaced by the freshly built pool and
`_last_idx[:] = [-1] * 8`. -/
def bankReload (_s : BankState) (newLens : Fin 8 → ℕ) : BankState :=
  ⟨newLens, fun _ => -1⟩

/-- Effect of `stop` on the bank (engine.py lines 480-484): every pool is
cleared (`pool.clear()`), while `_last_idx` is left untouched. -/
def bankStop (s : BankState) : BankState :=
  { s with poolLen := fun _ => 0 }

/-- The invariant claimed for the sound bank: each last-played index is -1
or a valid index into the current pool of its slot. -/
def bankInv (s : BankState) : Prop :=
  ∀ i, s.lastIdx i = -1 ∨ (0 ≤ s.lastIdx i ∧ s.lastIdx i < (s.poolLen i : ℤ))

instance (s : BankState) : Decidable (bankInv s) := by
  unfold bankInv; infer_instance

/- ───────────────────────── Theorems: C10 ─────────────────────────────── -/

/-- C10 counterexample: the invariant is not preserved by every operation
that mutates the bank.  After a reload installing pools of size 2 and one
`_pick` on slot 0 (recording index 0), `stop()` clears all pools but keeps
`_last_idx[0] = 0`, which then refers past the end of the now-empty pool. -/
theorem c10_last_idx_invariant_cex :
    ¬ bankInv (bankStop (bankPickStep (bankReload initBank (fun _ => 2)) 0
        none (fun _ => 0) [])) := by
  intro h
  have h0 := h 0
  revert h0
  decide

/-- C10 (amended): the invariant "each `_last_idx[i]` is -1 or a valid
index into pool i" holds initially and is preserved by every `_pick` and by
every `reload_sounds` (the two operations that write `_last_idx`); it is
not preserved by `stop()`, which empties the pools without resetting the
indices. -/
theorem c10_last_idx_invariant (s : BankState) (i : Fin 8) (bias : Option ℕ)
    (draws : ℕ → ℕ) (recent : List (ℕ × ℕ)) (hs : bankInv s) :
    bankInv initBank
  ∧ bankInv (bankPickStep s i bias draws recent)
  ∧ ∀ newLens, bankInv (bankReload s newLens) := by
  refine ⟨fun j => Or.inl rfl, ?_, fun newLens j => Or.inl rfl⟩
  intro j
  by_cases hji : j = i
  · subst hji
    simp only [bankPickStep, Function.update_same]
    set n := s.poolLen j with hn
    rcases Nat.lt_or_ge n 2 with hlt | hge
    · have : (pick n (s.lastIdx j) recent j.val bias draws).2 = s.lastIdx j := by
        interval_cases n <;> simp [pick]
      rw [this]
      exact hs j
    · have hspec := chooseIdx_spec n (s.lastIdx j) recent j.val bias draws hge
      have h0 : n ≠ 0 := by omega
      have h1 : n ≠ 1 := by omega
      simp only [pick, if_neg h0, if_neg h1]
      exact Or.inr ⟨hspec.2.1, hspec.2.2⟩
  · simp only [bankPickStep, Function.update_noteq hji]
    exact hs j

/-- C10 witness: the amended theorem at a concrete bank state with two
two-clip pools. -/
theorem c10_last_idx_invariant_witness :
    bankInv initBank
  ∧ bankInv (bankPickStep ⟨fun _ => 2, fun _ => -1⟩ 0 none (fun _ => 0) [])
  ∧ ∀ newLens, bankInv (bankReload ⟨fun _ => 2, fun _ => -1⟩ newLens) :=
  c10_last_idx_invariant ⟨fun _ => 2, fun _ => -1⟩ 0 none (fun _ => 0) []
    (fun _ => Or.inl rfl)

/- ───────────────────────── AudioEngine.update_volume ─────────────────── -/

/-- Clip-volume state touched by `update_volume`: the stored master volume
`self._volume`, the per-clip volumes of the eight pools, and the per-clip
volumes of the custom bindings.  A clip's volume is the value last passed
to its `set_volume`. -/
structure VolState where
  volume : ℚ
  pools : List (List ℚ)
  customs : List ℚ

/-- AudioEngine.update_volume (engine.py lines 516-525): stores the level
clamped to [0, 1] in `self._volume`, then calls `snd.set_volume(new_vol)` —
with the unclamped argument — on every clip of every pool and on every
custom binding. -/
def update_volume (s : VolState) (new_vol : ℚ) : VolState :=
  { volume := max 0 (min 1 new_vol)
    pools := s.pools.map fun pool => pool.map fun _ => new_vol
    customs := s.customs.map fun _ => new_vol }

/- ───────────────────────── Theorems: C6 ──────────────────────────────── -/

/-- C6 counterexample: broadcasting is done with the raw input, not the
clamped value.  For level 1.5 the stored master volume is clamped to 1 but
every clip receives 1.5. -/
theorem c6_update_volume_cex :
    (update_volume ⟨1, [[1]], []⟩ (3 / 2)).volume = 1
  ∧ (update_volume ⟨1, [[1]], []⟩ (3 / 2)).pools = [[3 / 2]]
  ∧ ((3 : ℚ) / 2) ≠ (update_volume ⟨1, [[1]], []⟩ (3 / 2)).volume := by
  refine ⟨?_, ?_, ?_⟩ <;> simp [update_volume] <;> norm_num

/-- C6 (amended): `update_volume` clamps the stored master volume to [0, 1]
but broadcasts the raw level to every clip in every pool and every custom
binding; the two coincide — every clip ends at the clamped level — exactly
when the input level already lies in [0, 1]. -/
theorem c6_update_volume (s : VolState) (v : ℚ) (h0 : 0 ≤ v) (h1 : v ≤ 1) :
    (update_volume s v).volume = max 0 (min 1 v)
  ∧ (∀ p ∈ (update_volume s v).pools, ∀ c ∈ p, c = v)
  ∧ (∀ c ∈ (update_volume s v).customs, c = v)
  ∧ (update_volume s v).volume = v := by
  refine ⟨rfl, ?_, ?_, ?_⟩
  · intro p hp c hc
    simp only [update_volume, List.mem_map] at hp
    obtain ⟨p0, -, hp0⟩ := hp
    rw [← hp0] at hc
    simp only [List.mem_map] at hc
    obtain ⟨-, -, hcv⟩ := hc
    exact hcv.symm
  · intro c hc
    simp only [update_volume, List.mem_map] at hc
    obtain ⟨-, -, hcv⟩ := hc
    exact hcv.symm
  · simp only [update_volume]
    rw [min_eq_right h1, max_eq_right h0]

/-- C6 witness: the amended theorem at level 1/2 on a one-pool, one-custom
state. -/
theorem c6_update_volume_witness :
    (update_volume ⟨1, [[1]], [1]⟩ (1 / 2)).volume = max 0 (min 1 (1 / 2))
  ∧ (∀ p ∈ (update_volume ⟨1, [[1]], [1]⟩ (1 / 2)).pools, ∀ c ∈ p, c = 1 / 2)
  ∧ (∀ c ∈ (update_volume ⟨1, [[1]], [1]⟩ (1 / 2)).customs, c = 1 / 2)
  ∧ (update_volume ⟨1, [[1]], [1]⟩ (1 / 2)).volume = 1 / 2 :=
  c6_update_volume ⟨1, [[1]], [1]⟩ (1 / 2) (by norm_num) (by norm_num)

/- ───────────────────────── dsp.normalize ─────────────────────────────── -/

/-- Peak of a buffer, `float(np.max(np.abs(audio)))` (dsp.py line 201),
with 0 for the empty buffer. -/
def maxAbs (xs : List ℚ) : ℚ :=
  (xs.map fun x => |x|).foldr max 0

/-- dsp.normalize (dsp.py lines 199-204): scale by `target / peak` when the
peak exceeds 1e-7, otherwise pass the buffer through unscaled. -/
def normalize (xs : List ℚ) (target : ℚ) : List ℚ :=
  if maxAbs xs > 1 / 10000000 then xs.map fun x => x * (target / maxAbs xs)
  else xs

theorem maxAbs_cons (x : ℚ) (xs : List ℚ) : maxAbs (x :: xs) = max |x| (maxAbs xs) := rfl

theorem maxAbs_nonneg (xs : List ℚ) : 0 ≤ maxAbs xs := by
  induction xs with
  | nil => exact le_refl 0
  | cons x xs ih => exact le_trans ih (le_max_right _ _)

theorem maxAbs_map_mul (xs : List ℚ) (c : ℚ) (hc : 0 ≤ c) :
    maxAbs (xs.map fun x => x * c) = c * maxAbs xs := by
  induction xs with
  | nil => simp [maxAbs]
  | cons x xs ih =>
      rw [List.map_cons, maxAbs_cons, maxAbs_cons, ih, abs_mul, abs_of_nonneg hc,
          mul_max_of_nonneg _ _ hc, mul_comm |x| c]

/- ───────────────────────── Theorems: C5 ──────────────────────────────── -/

/-- C5: for a buffer whose peak exceeds 1e-7, `normalize` yields a buffer
whose peak equals the (nonnegative) target exactly; a buffer with peak at
most 1e-7 passes through unscaled; and `normalize` is idempotent.  Float
arithmetic is idealised as exact rational arithmetic. -/
theorem c5_normalize_spec (xs : List ℚ) (t : ℚ) (ht : 0 ≤ t) :
    (maxAbs xs > 1 / 10000000 → maxAbs (normalize xs t) = t)
  ∧ (maxAbs xs ≤ 1 / 10000000 → normalize xs t = xs)
  ∧ normalize (normalize xs t) t = normalize xs t := by
  have hpeak :
      maxAbs xs > 1 / 10000000 → maxAbs (normalize xs t) = t := by
    intro hgt
    have hp : (0 : ℚ) < maxAbs xs := lt_trans (by norm_num) hgt
    have hc : 0 ≤ t / maxAbs xs := div_nonneg ht (le_of_lt hp)
    rw [normalize, if_pos hgt, maxAbs_map_mul xs _ hc, div_mul_cancel₀ t (ne_of_gt hp)]
  refine ⟨hpeak, ?_, ?_⟩
  · intro hle
    rw [normalize, if_neg (not_lt.mpr hle)]
  · by_cases hgt : maxAbs xs > 1 / 10000000
    · have hy : maxAbs (normalize xs t) = t := hpeak hgt
      by_cases hty : t > 1 / 10000000
      · have hne : t ≠ 0 := ne_of_gt (lt_trans (by norm_num) hty)
        rw [normalize, hy, if_pos hty, div_self hne]
        simp
      · rw [normalize, hy, if_neg hty]
    · have hxs : normalize xs t = xs := by rw [normalize, if_neg hgt]
      rw [hxs]
      exact hxs

/-- C5 witness: the buffer [1/2, -1/4] with target 1/4: its peak 1/2
exceeds 1e-7 and the normalized peak equals 1/4. -/
theorem c5_normalize_spec_witness :
    (maxAbs [1 / 2, -1 / 4] > 1 / 10000000 →
        maxAbs (normalize [1 / 2, -1 / 4] (1 / 4)) = 1 / 4)
  ∧ (maxAbs [1 / 2, -1 / 4] ≤ 1 / 10000000 →
        normalize [1 / 2, -1 / 4] (1 / 4) = [1 / 2, -1 / 4])
  ∧ normalize (normalize [1 / 2, -1 / 4] (1 / 4)) (1 / 4) =
        normalize [1 / 2, -1 / 4] (1 / 4) :=
  c5_normalize_spec [1 / 2, -1 / 4] (1 / 4) (by norm_num)

/- ───────────────────────── WpmTracker ────────────────────────────────── -/

/-- WpmTracker.wpm (engine.py lines 153-161) over the list of recorded
timestamps, oldest first: 0 with fewer than 4 samples, 0 when the window
spans less than 0.01 s, otherwise `(count - 1) / (newest - oldest) * 12`. -/
def wpm (times : List ℚ) : ℚ :=
  if times.length < 4 then 0
  else
    let elapsed := times.getLastD 0 - times.headD 0
    if elapsed < 1 / 100 then 0
    else ((times.length : ℚ) - 1) / elapsed * 12

/-- WpmTracker.burst_wpm (engine.py lines 163-205), returning the pair
`(base_wpm, burst_factor)` as a function of the timestamp list (oldest
first) and the previous smoothed burst factor `self._burst_factor`. -/
def burst_wpm (times : List ℚ) (oldBurst : ℚ) : ℚ × ℚ :=
  let n := times.length
  if n < 8 then (0, 1)
  else
    let elapsedTotal := times.getLastD 0 - times.headD 0
    if elapsedTotal < 1 / 100 then (0, 1)
    else
      let base := ((n : ℚ) - 1) / elapsedTotal * 12
      if 10 ≤ n then
        let recentElapsed := times.getLastD 0 - times.getD (n - 5) 0
        let recentWpm := if recentElapsed > 1 / 100 then 4 / recentElapsed * 12 else base
        let burst := max (7 / 10) (min (13 / 10) (recentWpm / max base 1))
        (base, 6 / 10 * oldBurst + 4 / 10 * burst)
      else (base, 1)

/- ───────────────────────── Theorems: C8 ──────────────────────────────── -/

/-- C8 counterexample: with exactly 4 timestamps spanning only 3 ms the
code returns 0 (the `elapsed < 0.01` guard), not the claimed formula
`(count - 1) / (newest - oldest) * 12 = 12000`. -/
theorem c8_wpm_cex :
    wpm [0, 1 / 1000, 2 / 1000, 3 / 1000] = 0
  ∧ ((([0, 1 / 1000, 2 / 1000, 3 / 1000] : List ℚ).length : ℚ) - 1) = 3
  ∧ wpm [0, 1 / 1000, 2 / 1000, 3 / 1000] ≠
      ((([0, 1 / 1000, 2 / 1000, 3 / 1000] : List ℚ).length : ℚ) - 1) /
        (([0, 1 / 1000, 2 / 1000, 3 / 1000] : List ℚ).getLastD 0 -
          ([0, 1 / 1000, 2 / 1000, 3 / 1000] : List ℚ).headD 0) * 12 := by
  refine ⟨?_, ?_, ?_⟩ <;> norm_num [wpm, List.getLastD]

/-- C8 (amended): `wpm` returns 0 with fewer than 4 timestamps or when the
window spans less than 0.01 s, and otherwise the claimed formula;
`burst_wpm` returns (0, 1.0) with fewer than 8 samples, and with at least
10 samples (and a measurable window) returns the base WPM together with
`0.6 * old + 0.4 * clamp(recent / max(base, 1), 0.7, 1.3)`, the recent
speed being measured over the last 4 intervals; the smoothed burst factor
stays inside [0.7, 1.3] whenever the previous factor was. -/
theorem c8_wpm_spec (times : List ℚ) (ob : ℚ)
    (h4 : 4 ≤ times.length)
    (he : ¬ times.getLastD 0 - times.headD 0 < 1 / 100)
    (h10 : 10 ≤ times.length)
    (hob0 : 7 / 10 ≤ ob) (hob1 : ob ≤ 13 / 10) :
    wpm times =
      ((times.length : ℚ) - 1) / (times.getLastD 0 - times.headD 0) * 12
  ∧ (∀ ts : List ℚ, ts.length < 4 → wpm ts = 0)
  ∧ (∀ ts : List ℚ, ts.length < 8 → burst_wpm ts ob = (0, 1))
  ∧ burst_wpm times ob =
      (((times.length : ℚ) - 1) / (times.getLastD 0 - times.headD 0) * 12,
        6 / 10 * ob + 4 / 10 *
          max (7 / 10) (min (13 / 10)
            ((if times.getLastD 0 - times.getD (times.length - 5) 0 > 1 / 100 then
                4 / (times.getLastD 0 - times.getD (times.length - 5) 0) * 12
              else ((times.length : ℚ) - 1) / (times.getLastD 0 - times.headD 0) * 12) /
              max (((times.length : ℚ) - 1) / (times.getLastD 0 - times.headD 0) * 12) 1)))
  ∧ 7 / 10 ≤ (burst_wpm times ob).2 ∧ (burst_wpm times ob).2 ≤ 13 / 10 := by
  have h8 : ¬ times.length < 8 := by omega
  have h4' : ¬ times.length < 4 := by omega
  have hval : burst_wpm times ob =
      (((times.length : ℚ) - 1) / (times.getLastD 0 - times.headD 0) * 12,
        6 / 10 * ob + 4 / 10 *
          max (7 / 10) (min (13 / 10)
            ((if times.getLastD 0 - times.getD (times.length - 5) 0 > 1 / 100 then
                4 / (times.getLastD 0 - times.getD (times.length - 5) 0) * 12
              else ((times.length : ℚ) - 1) / (times.getLastD 0 - times.headD 0) * 12) /
              max (((times.length : ℚ) - 1) / (times.getLastD 0 - times.headD 0) * 12) 1))) := by
    rw [burst_wpm]
    simp only [if_neg h8, if_neg he, if_pos h10]
  refine ⟨?_, ?_, ?_, hval, ?_⟩
  · rw [wpm]
    simp only [if_neg h4', if_neg he]
  · intro ts hts
    rw [wpm, if_pos hts]
  · intro ts hts
    rw [burst_wpm]
    simp only [if_pos hts]
  · rw [hval]
    set q := max (7 / 10 : ℚ) (min (13 / 10)
      ((if times.getLastD 0 - times.getD (times.length - 5) 0 > 1 / 100 then
          4 / (times.getLastD 0 - times.getD (times.length - 5) 0) * 12
        else ((times.length : ℚ) - 1) / (times.getLastD 0 - times.headD 0) * 12) /
        max (((times.length : ℚ) - 1) / (times.getLastD 0 - times.headD 0) * 12) 1)) with hq
    have hq0 : 7 / 10 ≤ q := le_max_left _ _
    have hq1 : q ≤ 13 / 10 := by
      rw [hq]
      exact max_le (by norm_num) (min_le_left _ _)
    constructor
    · nlinarith
    · nlinarith

/-- Ten timestamps spaced 0.1 s apart, used by the C8 witness. -/
def wpmT10 : List ℚ :=
  [0, 1 / 10, 2 / 10, 3 / 10, 4 / 10, 5 / 10, 6 / 10, 7 / 10, 8 / 10, 9 / 10]

/-- C8 witness: 10 timestamps spaced 0.1 s apart with previous burst
factor 1. -/
theorem c8_wpm_spec_witness :
    wpm wpmT10 =
      ((wpmT10.length : ℚ) - 1) / (wpmT10.getLastD 0 - wpmT10.headD 0) * 12
  ∧ (∀ ts : List ℚ, ts.length < 4 → wpm ts = 0)
  ∧ (∀ ts : List ℚ, ts.length < 8 → burst_wpm ts 1 = (0, 1))
  ∧ burst_wpm wpmT10 1 =
      (((wpmT10.length : ℚ) - 1) / (wpmT10.getLastD 0 - wpmT10.headD 0) * 12,
        6 / 10 * 1 + 4 / 10 *
          max (7 / 10) (min (13 / 10)
            ((if wpmT10.getLastD 0 - wpmT10.getD (wpmT10.length - 5) 0 > 1 / 100 then
                4 / (wpmT10.getLastD 0 - wpmT10.getD (wpmT10.length - 5) 0) * 12
              else ((wpmT10.length : ℚ) - 1) / (wpmT10.getLastD 0 - wpmT10.headD 0) * 12) /
              max (((wpmT10.length : ℚ) - 1) / (wpmT10.getLastD 0 - wpmT10.headD 0) * 12) 1)))
  ∧ 7 / 10 ≤ (burst_wpm wpmT10 1).2 ∧ (burst_wpm wpmT10 1).2 ≤ 13 / 10 :=
  c8_wpm_spec wpmT10 1 (by simp [wpmT10]) (by norm_num [wpmT10]) (by simp [wpmT10])
    (by norm_num) (by norm_num)

/- ───────────────────────── dsp._mono_center ──────────────────────────── -/

/-- Samples at even interleaved positions (the left channel,
`pcm[0::2]`). -/
def evens : List ℤ → List ℤ
  | [] => []
  | [x] => [x]
  | x :: _ :: rest => x :: evens rest

/-- Samples at odd interleaved positions (the right channel,
`pcm[1::2]`). -/
def odds : List ℤ → List ℤ
  | [] => []
  | [_] => []
  | _ :: y :: rest => y :: odds rest

/-- Stereo branch of dsp._mono_center (dsp.py lines 231-237): both samples
of each frame are overwritten with `(L + R) >> 1` computed in int32, an
arithmetic shift, i.e. the floor of (L + R) / 2.  The int32 sum and the
int16 store never wrap for int16 inputs, so plain integers are faithful. -/
def monoCenterStereo : List ℤ → List ℤ
  | l :: r :: rest => (l + r).fdiv 2 :: (l + r).fdiv 2 :: monoCenterStereo rest
  | rest => rest

/-- Mono branch of dsp._mono_center (dsp.py lines 224-229): each sample is
duplicated into both channels of a stereo frame. -/
def monoDup : List ℤ → List ℤ
  | [] => []
  | x :: rest => x :: x :: monoDup rest

/-- dsp._mono_center (dsp.py lines 210-244), the final pass applied by both
`build_variation` (line 324) and `build_release_variation` (line 414) to
the quantised int16 PCM before it is serialised. -/
def mono_center (pcm : List ℤ) (n_ch : ℕ) : List ℤ :=
  if n_ch = 2 then monoCenterStereo pcm else monoDup pcm

theorem monoCenterStereo_channels :
    ∀ pcm : List ℤ, pcm.length % 2 = 0 →
      evens (monoCenterStereo pcm) =
          List.zipWith (fun l r => (l + r).fdiv 2) (evens pcm) (odds pcm)
    ∧ odds (monoCenterStereo pcm) =
          List.zipWith (fun l r => (l + r).fdiv 2) (evens pcm) (odds pcm)
  | [], _ => by simp [monoCenterStereo, evens, odds]
  | [x], h => by simp at h
  | l :: r :: rest, h => by
      have hr : rest.length % 2 = 0 := by
        simp only [List.length_cons] at h
        omega
      have ih := monoCenterStereo_channels rest hr
      simp only [monoCenterStereo, evens, odds, List.zipWith_cons_cons, ih.1, ih.2]
      exact ⟨trivial, trivial⟩

theorem monoDup_channels (l : List ℤ) :
    evens (monoDup l) = l ∧ odds (monoDup l) = l ∧
      (monoDup l).length = 2 * l.length := by
  induction l with
  | nil => simp [monoDup, evens, odds]
  | cons x rest ih =>
      refine ⟨?_, ?_, ?_⟩
      · simp [monoDup, evens, ih.1]
      · simp [monoDup, odds, ih.2.1]
      · simp only [monoDup, List.length_cons, ih.2.2]
        omega

/- ───────────────────────── Theorems: C9 ──────────────────────────────── -/

/-- C9: after the `_mono_center` pass that ends both `build_variation` and
`build_release_variation`, the two channels of the interleaved PCM are
identical: for stereo intermediate audio (even sample count) both channels
hold the floor of the integer average `(L + R) >> 1` of the original
channels, and for mono intermediate audio the single channel is duplicated
into both channels of a stereo frame of twice the length. -/
theorem c9_mono_center_channels (pcm : List ℤ) (h : pcm.length % 2 = 0) :
    evens (mono_center pcm 2) = odds (mono_center pcm 2)
  ∧ evens (mono_center pcm 2) =
      List.zipWith (fun l r => (l + r).fdiv 2) (evens pcm) (odds pcm)
  ∧ ∀ monoPcm : List ℤ,
      evens (mono_center monoPcm 1) = odds (mono_center monoPcm 1)
    ∧ evens (mono_center monoPcm 1) = monoPcm
    ∧ (mono_center monoPcm 1).length = 2 * monoPcm.length := by
  have hs := monoCenterStereo_channels pcm h
  refine ⟨?_, hs.1, ?_⟩
  · show evens (monoCenterStereo pcm) = odds (monoCenterStereo pcm)
    rw [hs.1, hs.2]
  · intro monoPcm
    have hm := monoDup_channels monoPcm
    refine ⟨?_, hm.1, hm.2.2⟩
    show evens (monoDup monoPcm) = odds (monoDup monoPcm)
    rw [hm.1, hm.2.1]

/-- C9 witness: the four-sample stereo buffer [100, 50, -3, -4]; note
`(-3 + -4) >> 1 = -4` (floor). -/
theorem c9_mono_center_channels_witness :
    evens (mono_center [100, 50, -3, -4] 2) = odds (mono_center [100, 50, -3, -4] 2)
  ∧ evens (mono_center [100, 50, -3, -4] 2) =
      List.zipWith (fun l r => (l + r).fdiv 2)
        (evens [100, 50, -3, -4]) (odds [100, 50, -3, -4])
  ∧ ∀ monoPcm : List ℤ,
      evens (mono_center monoPcm 1) = odds (mono_center monoPcm 1)
    ∧ evens (mono_center monoPcm 1) = monoPcm
    ∧ (mono_center monoPcm 1).length = 2 * monoPcm.length :=
  c9_mono_center_channels [100, 50, -3, -4] (by decide)

/- ───────────────────────── Dispatch gain (engine._do_play) ───────────── -/

/-- Equal-power scale `max(0.42, 1.0 / (n_active + 1) ** 0.5)` computed in
`AudioEngine._do_play` (engine.py line 918). -/
noncomputable def eq_scale (n_active : ℕ) : ℝ :=
  max (42 / 100) (1 / ((n_active : ℝ) + 1) ^ ((1 : ℝ) / 2))

/-- Channel volume `min(1.0, self._volume * eq_scale * mv_scale)` set just
before `ch.play` (engine.py line 922).  The same expression is used for
press, mouse and release commands. -/
noncomputable def dispatch_vol (master mv_scale : ℝ) (n_active : ℕ) : ℝ :=
  min 1 (master * eq_scale n_active * mv_scale)

/-- Dispatch volume as the spec sentence describes it, with an extra 0.80
factor on release events.  Used only to compare the spec's wording with the
code. -/
noncomputable def spec_dispatch_vol (is_release : Bool) (master mv_scale : ℝ)
    (n_active : ℕ) : ℝ :=
  min 1 (master * max (42 / 100) (1 / Real.sqrt ((n_active : ℝ) + 1)) * mv_scale *
    (if is_release then 8 / 10 else 1))

theorem eq_scale_eq_sqrt (n : ℕ) :
    eq_scale n = max (42 / 100) (1 / Real.sqrt ((n : ℝ) + 1)) := by
  rw [eq_scale, Real.sqrt_eq_rpow]

/- ───────────────────────── Theorems: C2 ──────────────────────────────── -/

/-- C2 counterexample: for a release dispatched at master volume 1/2 with
no other active voice and micro-variation scale 1, the code sets the
channel volume to 1/2, while the claimed formula with its extra 0.80
release factor gives 2/5. -/
theorem c2_dispatch_vol_cex :
    dispatch_vol (1 / 2) 1 0 ≠ spec_dispatch_vol true (1 / 2) 1 0 := by
  have h1 : eq_scale 0 = 1 := by
    rw [eq_scale_eq_sqrt]
    norm_num
  have hcode : dispatch_vol (1 / 2) 1 0 = 1 / 2 := by
    rw [dispatch_vol, h1]
    norm_num
  have hspec : spec_dispatch_vol true (1 / 2) 1 0 = 2 / 5 := by
    rw [spec_dispatch_vol]
    norm_num
  rw [hcode, hspec]
  norm_num

/-- C2 (amended): for every dispatch through the DSP-pool path — press,
mouse and release alike — the channel volume set before play is
`min(1, master * max(0.42, 1 / sqrt(n_active + 1)) * mv_scale)`; there is
no additional 0.80 factor for releases (release loudness is shaped inside
`vol_scale` and at pool-build time instead).  The equal-power scale always
lies in [0.42, 1] and the resulting volume never exceeds 1. -/
theorem c2_dispatch_vol (master mv : ℝ) (n : ℕ) :
    dispatch_vol master mv n =
      min 1 (master * max (42 / 100) (1 / Real.sqrt ((n : ℝ) + 1)) * mv)
  ∧ (42 / 100 : ℝ) ≤ eq_scale n
  ∧ eq_scale n ≤ 1
  ∧ dispatch_vol master mv n ≤ 1 := by
  refine ⟨by rw [dispatch_vol, eq_scale_eq_sqrt], le_max_left _ _, ?_, min_le_left _ _⟩
  rw [eq_scale_eq_sqrt]
  have hcast : (0 : ℝ) ≤ (n : ℝ) := Nat.cast_nonneg n
  have h1 : (1 : ℝ) ≤ Real.sqrt ((n : ℝ) + 1) :=
    calc (1 : ℝ) = Real.sqrt 1 := Real.sqrt_one.symm
      _ ≤ Real.sqrt ((n : ℝ) + 1) := Real.sqrt_le_sqrt (by linarith)
  have hpos : (0 : ℝ) < Real.sqrt ((n : ℝ) + 1) := lt_of_lt_of_le one_pos h1
  refine max_le (by norm_num) ?_
  rw [div_le_one hpos]
  exact h1

end MechKeys
